import Mathlib

/-!
Shallow embedding of the avroit/memcached Deno client (src/mod.ts) and proofs
about its connection pool, its response-framing read loop, and the in-memory
backend.  JS strings are modelled as lists of characters (the protocol is
ASCII text, so one char corresponds to one byte read from the socket).
-/

set_option maxRecDepth 4000

namespace Memcached

/-- Characters of a JS string, the text the client accumulates chunk by chunk. -/
abbrev Chars := List Char

/-- Converts a Lean string literal to its character list, for stating examples. -/
def strChars (s : String) : Chars := s.data

/-- JS `s.startsWith(p)`: the second list is an initial run of the first. -/
def startsWithC : Chars → Chars → Bool
  | _, [] => true
  | [], _ :: _ => false
  | c :: cs, d :: ds => c == d && startsWithC cs ds

/-- Helper for `splitCRLF`: prepends a character to the first piece of a split. -/
def consHead (c : Char) : List Chars → List Chars
  | [] => [[c]]
  | l :: ls => (c :: l) :: ls

/-- JS `s.split("\r\n")`: cuts the text at every (leftmost, non-overlapping)
occurrence of the CRLF delimiter.  Always returns at least one piece. -/
def splitCRLF : Chars → List Chars
  | [] => [[]]
  | '\r' :: '\n' :: rest => [] :: splitCRLF rest
  | c :: rest => consHead c (splitCRLF rest)

/-- JS `parts.join("\r\n")`: rejoins pieces with the CRLF delimiter. -/
def joinCRLF : List Chars → Chars
  | [] => []
  | [l] => l
  | l :: ls => l ++ '\r' :: '\n' :: joinCRLF ls

/-- Whether the text contains the CRLF delimiter as a substring. -/
def hasCRLF : Chars → Bool
  | [] => false
  | '\r' :: '\n' :: _ => true
  | _ :: rest => hasCRLF rest

example : splitCRLF (strChars "a\r\nb\r\n") = [strChars "a", strChars "b", []] := by decide
example : splitCRLF (strChars "x\r") = [strChars "x\r"] := by decide
example : splitCRLF (strChars "\r\r\n") = [strChars "\r", []] := by decide
example : joinCRLF [strChars "a", strChars "b"] = strChars "a\r\nb" := by decide
example : startsWithC (strChars "ENDER") (strChars "EN") = true := by decide

/-! ## The response read loop of `Memcached.request` (src/mod.ts lines 157-214) -/

/-- Set of lines that indicate the end of a response from the server
(`Memcached.ENDING_LINES`, src/mod.ts lines 27-35). -/
def ENDING_LINES : List Chars :=
  [strChars "END", strChars "STORED", strChars "NOT_STORED", strChars "EXISTS",
   strChars "NOT_FOUND", strChars "DELETED", strChars "OK"]

/-- Membership test `Memcached.ENDING_LINES.has(line)`. -/
def isEndingLine (l : Chars) : Bool := decide (l ∈ ENDING_LINES)

/-- Condition of the per-line break inside the `for` loop of the read loop:
`ENDING_LINES.has(line) || command.startsWith("incr") || command.startsWith("decr")`. -/
def lineBreakCond (command l : Chars) : Bool :=
  isEndingLine l || startsWithC command (strChars "incr")
    || startsWithC command (strChars "decr")

/-- Condition of the post-chunk scan:
`lines.some((l) => l.startsWith("EN") || Memcached.ENDING_LINES.has(l))`. -/
def someENCond (lines : List Chars) : Bool :=
  lines.any (fun l => startsWithC l (strChars "EN") || isEndingLine l)

/-- Mutable locals of one exchange: the list of already-delimited complete
lines (`lines`), the trailing unterminated fragment (`partial` in the source,
called `carry` here because `partial` is a Lean keyword), and
`totalBytesRead` (chars, since the protocol text is ASCII). -/
structure ExchState where
  lines : List Chars
  carry : Chars
  total : Nat
deriving DecidableEq

/-- Initial exchange state: no lines, empty accumulator, zero bytes read. -/
def initExch : ExchState := ⟨[], [], 0⟩

/-- One observable step of the transport during the read loop: either
`connection.read` returns a decoded chunk, or it throws.  The end of the
event list models `read` returning `null` (end of stream). -/
inductive ReadEv where
  | chunk (s : Chars)
  | fail
deriving DecidableEq

/-- How the read loop's `try` body exits: a normal return with the joined
response, the thrown "Response exceeds maximum buffer size." error, or an
error propagating out of a `connection.read` call. -/
inductive LoopOut where
  | done (resp : Chars)
  | oversize
  | readErr
deriving DecidableEq

/-- Return value construction of `request`:
`[...lines, partial].filter(Boolean).join("\r\n")`. -/
def finishResp (st : ExchState) : Chars :=
  joinCRLF ((st.lines ++ [st.carry]).filter (fun l => l ≠ []))

/-- The `for (const line of parts)` loop: pushes each complete line onto
`lines`, breaking out of the read loop as soon as `lineBreakCond` holds for a
just-pushed line.  Returns the grown line list and whether it broke. -/
def pushLines (command : Chars) (lines : List Chars) : List Chars → List Chars × Bool
  | [] => (lines, false)
  | l :: rest =>
    if lineBreakCond command l then (lines ++ [l], true)
    else pushLines command (lines ++ [l]) rest

/-- The `readLoop: while (true)` loop of `Memcached.request`: per chunk it
appends to the accumulator, splits on CRLF keeping the trailing fragment,
processes complete lines (with the per-line break), then applies the
`startsWith("EN")` scan and the maximum-size guard.  Exhausting the event
list is `read` returning `null` (EOF). -/
def readLoop (command : Chars) (maxBufferSize : Nat) :
    ExchState → List ReadEv → LoopOut × ExchState
  | st, [] => (.done (finishResp st), st)
  | _st, .fail :: _ => (.readErr, _st)
  | st, .chunk s :: rest =>
    let total' := st.total + s.length
    let parts := splitCRLF (st.carry ++ s)
    let carry' := parts.getLastD []
    let complete := parts.dropLast
    let pushed := pushLines command st.lines complete
    if pushed.2 then
      let st' : ExchState := ⟨pushed.1, [], total'⟩
      (.done (finishResp st'), st')
    else
      let st' : ExchState := ⟨pushed.1, carry', total'⟩
      if someENCond st'.lines then (.done (finishResp st'), st')
      else if maxBufferSize ≤ total' then (.oversize, st')
      else readLoop command maxBufferSize st' rest

/-! ## The connection pool (src/mod.ts lines 98-149, 219-230) -/

/-- Pool state of a `Memcached` instance: `pool` is the JS array of idle
connections (index 0 first; `push` appends, `pop` removes the last), `que`
the JS array of queued waiters (`push` appends, `shift` removes the first),
`poolSize` the configured capacity.  Connections and waiters are identified
by numbers. -/
structure PoolState where
  pool : List Nat
  que : List Nat
  poolSize : Nat
deriving DecidableEq

/-- Result of `getConnection`: an idle connection popped from the pool, a
brand-new connection from `createConnection`, or a queued waiter's promise. -/
inductive AcquireResult where
  | fromIdle (c : Nat)
  | opened (c : Nat)
  | queued (w : Nat)
deriving DecidableEq

/-- Embedding of `Memcached.getConnection` (src/mod.ts lines 98-125).
`freshConn` names the connection `createConnection` would return and `w`
names the waiter pushed onto the queue. -/
def getConnection (st : PoolState) (freshConn w : Nat) : AcquireResult × PoolState :=
  if st.pool.length > 0 then
    (.fromIdle (st.pool.getLastD 0), { st with pool := st.pool.dropLast })
  else if st.pool.length + st.que.length < st.poolSize then
    (.opened freshConn, st)
  else
    (.queued w, { st with que := st.que ++ [w] })

/-- What `releaseConnection` did with the connection: resolved the oldest
queued waiter with it, pushed it back onto the pool, or closed it. -/
inductive ReleaseAction where
  | handed (w c : Nat)
  | pooled (c : Nat)
  | closed (c : Nat)
deriving DecidableEq

/-- Embedding of `Memcached.releaseConnection` (src/mod.ts lines 131-149). -/
def releaseConnection (st : PoolState) (c : Nat) : PoolState × ReleaseAction :=
  match st.que with
  | w :: rest => ({ st with que := rest }, .handed w c)
  | [] =>
    if st.pool.length < st.poolSize then
      ({ st with pool := st.pool ++ [c] }, .pooled c)
    else (st, .closed c)

/-- Message of the queue-timeout rejection (src/mod.ts lines 113-117):
`Connection in QUE timeout: Pool size=..., Queue length=...`. -/
def queTimeoutMsg (poolSize queLength : Nat) : String :=
  "Connection in QUE timeout: Pool size=" ++ toString poolSize ++
    ", Queue length=" ++ toString queLength

/-- Firing of the `setTimeout` callback armed for a queued acquisition
(src/mod.ts lines 111-120): it rejects the waiter's promise with the
timeout error and does nothing else — in particular it does not touch
`this.que`. -/
def onQueTimeout (st : PoolState) : PoolState × String :=
  (st, queTimeoutMsg st.poolSize st.que.length)

/-! ## The full `request` exchange (src/mod.ts lines 157-214) -/

/-- Outcome of one `request` call: the returned response string, the thrown
size-limit error (with its message), or a transport error propagating from
`connection.write` or `connection.read`. -/
inductive ReqOutcome where
  | ok (resp : Chars)
  | failed (msg : String)
  | transportErr
deriving DecidableEq

/-- Pool-affecting action emitted while `request` runs. -/
inductive PoolEv where
  | released (c : Nat)
  | closedConn (c : Nat)
deriving DecidableEq

/-- Maps the read loop's exit to the outcome `request` produces. -/
def loopOutcome (o : LoopOut) : ReqOutcome :=
  match o with
  | .done r => .ok r
  | .oversize => .failed "Response exceeds maximum buffer size."
  | .readErr => .transportErr

/-- Embedding of the `try`/`finally` body of `Memcached.request` after the
connection is acquired: the write either throws (`writeOk = false`) or the
read loop runs; the `finally` block then calls `releaseConnection` exactly
where the source does.  Returns the outcome together with the list of
pool-affecting actions the body performed on the acquired connection. -/
def requestTrace (conn : Nat) (writeOk : Bool) (command : Chars)
    (maxBufferSize : Nat) (evs : List ReadEv) : ReqOutcome × List PoolEv :=
  let outcome :=
    if writeOk then loopOutcome (readLoop command maxBufferSize initExch evs).1
    else ReqOutcome.transportErr
  (outcome, [PoolEv.released conn])

/-- The pool-state effect of one `request` exchange that acquired connection
`conn` and runs over pool state `st`: whatever the body does, the `finally`
block hands `conn` to `releaseConnection` on the current pool state. -/
def requestStep (st : PoolState) (conn : Nat) (writeOk : Bool) (command : Chars)
    (maxBufferSize : Nat) (evs : List ReadEv) : ReqOutcome × PoolState × ReleaseAction :=
  let outcome :=
    if writeOk then loopOutcome (readLoop command maxBufferSize initExch evs).1
    else ReqOutcome.transportErr
  (outcome, (releaseConnection st conn).1, (releaseConnection st conn).2)

/-! ## `Memcached.get` response parsing (src/mod.ts lines 237-244) -/

/-- Embedding of the parse in `Memcached.get`: if the response starts with
`VALUE` the returned value is the second CRLF-piece of the response
(`const [, value] = response.split("\r\n")`), otherwise the call returns
`null` (`none`). -/
def memcachedGetParse (response : Chars) : Option Chars :=
  if startsWithC response (strChars "VALUE") then (splitCRLF response).get? 1
  else none

/-- Decimal digits of a natural number, used to render the `<len>` field of
a well-formed `VALUE` reply. -/
def natChars (n : Nat) : Chars := (toString n).data

/-- A well-formed single-value server reply to `get key`:
`VALUE <key> <flags> <len>\r\n<value>\r\nEND\r\n`. -/
def valueReply (key v : Chars) : Chars :=
  strChars "VALUE " ++ key ++ strChars " 0 " ++ natChars v.length ++
    strChars "\r\n" ++ v ++ strChars "\r\nEND\r\n"

/-- The string a `get key` exchange returns when the server reply arrives as
the given read events, fed through the real read loop (`none` when the loop
does not return normally). -/
def getExchange (maxBufferSize : Nat) (key : Chars) (evs : List ReadEv) : Option Chars :=
  match readLoop (strChars "get " ++ key ++ strChars "\r\n") maxBufferSize initExch evs with
  | (.done r, _) => some r
  | _ => none

/-! ## The in-memory backend `InMemoryCached` (src/mod.ts lines 430-606) -/

/-- One stored entry: the value and the `expiresAt` timestamp in
milliseconds (`0` means never expires).  Timestamps are integers. -/
structure Entry where
  value : String
  expiresAt : Int
deriving DecidableEq

/-- The `Map` of the in-memory backend, as an association list keyed by the
cache key; `Map.set` replaces in place, `Map.delete` removes. -/
abbrev MemStore := List (String × Entry)

/-- JS `Map.get`. -/
def storeGet (m : MemStore) (key : String) : Option Entry :=
  (m.find? (fun p => p.1 = key)).map (·.2)

/-- JS `Map.set`: replaces the entry of an existing key, else appends. -/
def storeSet (m : MemStore) (key : String) (e : Entry) : MemStore :=
  if m.any (fun p => p.1 = key) then
    m.map (fun p => if p.1 = key then (key, e) else p)
  else m ++ [(key, e)]

/-- JS `Map.delete`. -/
def storeDelete (m : MemStore) (key : String) : MemStore :=
  m.filter (fun p => p.1 ≠ key)

/-- Embedding of `InMemoryCached.get` (src/mod.ts lines 446-453) at clock
time `now` (milliseconds): returns the value when the entry exists and is
unexpired (`expiresAt === 0 || expiresAt > Date.now()`), otherwise deletes
the key and returns `null`. -/
def memGet (m : MemStore) (now : Int) (key : String) : Option String × MemStore :=
  match storeGet m key with
  | some e =>
    if e.expiresAt = 0 ∨ e.expiresAt > now then (some e.value, m)
    else (none, storeDelete m key)
  | none => (none, storeDelete m key)

/-- Embedding of `InMemoryCached.set` (src/mod.ts lines 462-471): clamps the
requested lifetime (seconds) to a minimum of 1, computes
`expiresAt = Date.now() + lifetime * 1000` (the `lifetime > 0` test can no
longer fail after the clamp), and stores the entry. -/
def memSet (m : MemStore) (now : Int) (key value : String) (lifetime : Int) : MemStore :=
  let lt := max 1 lifetime
  let expiresAt : Int := if lt > 0 then now + lt * 1000 else 0
  storeSet m key ⟨value, expiresAt⟩

/-- JS `parseInt(s, 10)`: skips leading whitespace, consumes an optional
sign and then the longest run of decimal digits; `none` models `NaN`. -/
def parseIntJS (s : String) : Option Int :=
  let t := s.data.dropWhile (fun c => c = ' ' ∨ c = '\t' ∨ c = '\n' ∨ c = '\r')
  let signDigits : Int × Chars :=
    match t with
    | '-' :: rest => (-1, rest)
    | '+' :: rest => (1, rest)
    | _ => (1, t)
  let digits := signDigits.2.takeWhile (fun c => '0' ≤ c ∧ c ≤ '9')
  if digits = [] then none
  else some (signDigits.1 * (digits.foldl (fun acc c => acc * 10 + (c.toNat - '0'.toNat)) 0 : Nat))

/-- Rendering of a JS number that is either an integer or `NaN`
(`newValue.toString()`). -/
def numToString : Option Int → String
  | some i => toString i
  | none => "NaN"

/-- Embedding of `InMemoryCached.append` (src/mod.ts lines 538-545): `get`,
reject on `null`, else `set(key, existing + value, 0)`.  `none` models the
rejected promise. -/
def memAppend (m : MemStore) (now : Int) (key value : String) : Option MemStore :=
  match memGet m now key with
  | (some existing, m') => some (memSet m' now key (existing ++ value) 0)
  | (none, _) => none

/-- Embedding of `InMemoryCached.prepend` (src/mod.ts lines 553-560). -/
def memPrepend (m : MemStore) (now : Int) (key value : String) : Option MemStore :=
  match memGet m now key with
  | (some existing, m') => some (memSet m' now key (value ++ existing) 0)
  | (none, _) => none

/-- Embedding of `InMemoryCached.incr` (src/mod.ts lines 568-576): `get`,
reject on `null`, else compute `parseInt(existing, 10) + value` (NaN
propagates) and `set(key, newValue.toString(), 0)`. -/
def memIncr (m : MemStore) (now : Int) (key : String) (value : Int) :
    Option (Option Int × MemStore) :=
  match memGet m now key with
  | (some existing, m') =>
    let newValue := (parseIntJS existing).map (· + value)
    some (newValue, memSet m' now key (numToString newValue) 0)
  | (none, _) => none

/-- Embedding of `InMemoryCached.decr` (src/mod.ts lines 584-592). -/
def memDecr (m : MemStore) (now : Int) (key : String) (value : Int) :
    Option (Option Int × MemStore) :=
  match memGet m now key with
  | (some existing, m') =>
    let newValue := (parseIntJS existing).map (· - value)
    some (newValue, memSet m' now key (numToString newValue) 0)
  | (none, _) => none

/-! ## Lemmas about CRLF splitting -/

lemma head_cond {c : Char} {rest : Chars}
    (h : ∀ r' : List Char, c = '\r' → rest = '\n' :: r' → False) :
    ¬(c = '\r' ∧ rest.head? = some '\n') := by
  rintro ⟨rfl, hh⟩
  cases rest with
  | nil => simp at hh
  | cons d r => simp at hh; exact h r rfl (by rw [hh])

lemma splitCRLF_cons (c : Char) (rest : Chars) (h : ¬(c = '\r' ∧ rest.head? = some '\n')) :
    splitCRLF (c :: rest) = consHead c (splitCRLF rest) := by
  rw [splitCRLF.eq_def]
  split
  · simp_all
  · rename_i heq
    rw [List.cons.injEq] at heq
    exact absurd ⟨heq.1, by rw [heq.2]; rfl⟩ h
  · rename_i heq
    rw [List.cons.injEq] at heq
    rw [heq.1, heq.2]

lemma hasCRLF_cons (c : Char) (rest : Chars) (h : ¬(c = '\r' ∧ rest.head? = some '\n')) :
    hasCRLF (c :: rest) = hasCRLF rest := by
  rw [hasCRLF.eq_def]
  split
  · simp_all
  · rename_i heq
    rw [List.cons.injEq] at heq
    exact absurd ⟨heq.1, by rw [heq.2]; rfl⟩ h
  · rename_i heq
    rw [List.cons.injEq] at heq
    rw [heq.2]

lemma consHead_ne_nil (c : Char) (ls : List Chars) : consHead c ls ≠ [] := by
  cases ls <;> simp [consHead]

lemma splitCRLF_ne_nil (s : Chars) : splitCRLF s ≠ [] := by
  induction s using splitCRLF.induct with
  | case1 => simp [splitCRLF]
  | case2 rest ih => simp [splitCRLF]
  | case3 c rest h ih =>
    rw [splitCRLF_cons c rest (head_cond h)]
    exact consHead_ne_nil _ _

lemma joinCRLF_cons_cons (l l' : Chars) (ls : List Chars) :
    joinCRLF (l :: l' :: ls) = l ++ '\r' :: '\n' :: joinCRLF (l' :: ls) := rfl

lemma joinCRLF_consHead (c : Char) (ls : List Chars) :
    joinCRLF (consHead c ls) = c :: joinCRLF ls := by
  match ls with
  | [] => rfl
  | [l] => rfl
  | l :: l' :: ls' => rfl

lemma joinCRLF_splitCRLF (s : Chars) : joinCRLF (splitCRLF s) = s := by
  induction s using splitCRLF.induct with
  | case1 => rfl
  | case2 rest ih =>
    rw [splitCRLF]
    cases hs : splitCRLF rest with
    | nil => exact absurd hs (splitCRLF_ne_nil rest)
    | cons l ls =>
      rw [joinCRLF_cons_cons, ← hs, ih]
      rfl
  | case3 c rest h ih =>
    rw [splitCRLF_cons c rest (head_cond h), joinCRLF_consHead, ih]

lemma splitCRLF_eq_singleton {s l : Chars} (h : splitCRLF s = [l]) : s = l := by
  have := joinCRLF_splitCRLF s
  rw [h] at this
  exact this.symm

lemma splitCRLF_append (a b : Chars) :
    splitCRLF (a ++ b)
      = (splitCRLF a).dropLast ++ splitCRLF ((splitCRLF a).getLastD [] ++ b) := by
  induction a using splitCRLF.induct with
  | case1 => simp [splitCRLF]
  | case2 rest ih =>
    have hs := splitCRLF_ne_nil rest
    show [] :: splitCRLF (rest ++ b) = _
    rw [ih]
    rw [show splitCRLF ('\r' :: '\n' :: rest) = [] :: splitCRLF rest from rfl]
    rw [List.dropLast_cons_of_ne_nil hs, List.getLastD_cons]
    rfl
  | case3 c rest h ih =>
    cases hr : rest with
    | nil =>
      rw [show splitCRLF [c] = [[c]] by
        rw [splitCRLF_cons c [] (by simp)]; rfl]
      simp
    | cons d rest' =>
      rw [← hr]
      have hcond : ¬(c = '\r' ∧ rest.head? = some '\n') := head_cond h
      have hcondb : ¬(c = '\r' ∧ (rest ++ b).head? = some '\n') := by
        rw [hr]; rw [hr] at hcond; simpa using hcond
      rw [List.cons_append, splitCRLF_cons c (rest ++ b) hcondb, ih]
      rw [splitCRLF_cons c rest hcond]
      cases hS : splitCRLF rest with
      | nil => exact absurd hS (splitCRLF_ne_nil rest)
      | cons l0 ls =>
        cases ls with
        | nil =>
          have hl0 : rest = l0 := splitCRLF_eq_singleton hS
          have hcond2 : ¬(c = '\r' ∧ (l0 ++ b).head? = some '\n') := by
            rw [← hl0, hr]
            rw [hr] at hcond
            simpa using hcond
          simp only [consHead, List.dropLast_single, List.getLastD_cons, List.getLastD_nil,
            List.dropLast_nil, List.nil_append]
          rw [List.cons_append, splitCRLF_cons c (l0 ++ b) hcond2]
          rfl
        | cons l1 ls' =>
          simp only [consHead, List.getLastD_cons,
            List.dropLast_cons_of_ne_nil (by simp : (l1 :: ls' : List Chars) ≠ [])]
          rfl

lemma hasCRLF_getLastD_splitCRLF (s : Chars) :
    hasCRLF ((splitCRLF s).getLastD []) = false := by
  induction s using splitCRLF.induct with
  | case1 => rfl
  | case2 rest ih =>
    rw [show splitCRLF ('\r' :: '\n' :: rest) = [] :: splitCRLF rest from rfl,
      List.getLastD_cons]
    exact ih
  | case3 c rest h ih =>
    rw [splitCRLF_cons c rest (head_cond h)]
    cases hS : splitCRLF rest with
    | nil => exact absurd hS (splitCRLF_ne_nil rest)
    | cons l0 ls =>
      cases ls with
      | nil =>
        have hl0 : rest = l0 := splitCRLF_eq_singleton hS
        simp only [consHead, List.getLastD_cons, List.getLastD_nil]
        rw [hS] at ih
        simp only [List.getLastD_cons, List.getLastD_nil] at ih
        rw [hasCRLF_cons c l0 (by rw [← hl0]; exact head_cond h)]
        exact ih
      | cons l1 ls' =>
        simp only [consHead, List.getLastD_cons]
        rw [hS] at ih
        simp only [List.getLastD_cons] at ih
        exact ih

lemma splitCRLF_of_not_hasCRLF {s : Chars} (h : hasCRLF s = false) : splitCRLF s = [s] := by
  induction s using splitCRLF.induct with
  | case1 => rfl
  | case2 rest ih =>
    rw [show hasCRLF ('\r' :: '\n' :: rest) = true from rfl] at h
    cases h
  | case3 c rest hh ih =>
    rw [hasCRLF_cons c rest (head_cond hh)] at h
    rw [splitCRLF_cons c rest (head_cond hh), ih h]
    rfl

lemma splitCRLF_clean_append {a : Chars} (b : Chars) (ha : hasCRLF a = false) :
    splitCRLF (a ++ '\r' :: '\n' :: b) = a :: splitCRLF b := by
  induction a using splitCRLF.induct with
  | case1 => rfl
  | case2 rest ih =>
    rw [show hasCRLF ('\r' :: '\n' :: rest) = true from rfl] at ha
    cases ha
  | case3 c rest h ih =>
    have hcnd := head_cond h
    rw [hasCRLF_cons c rest hcnd] at ha
    have hcnd2 : ¬(c = '\r' ∧ (rest ++ '\r' :: '\n' :: b).head? = some '\n') := by
      cases rest with
      | nil => simp
      | cons d r => simpa using hcnd
    rw [List.cons_append, splitCRLF_cons c _ hcnd2, ih ha]
    rfl

/-! ## Spec-side definitions, written from the specification's words -/

/-- Acquisition policy as the spec states it: pop the most recently pushed
idle connection when one exists; otherwise open a brand-new connection
exactly when `idle.size + waiters.size < capacity`; otherwise append the
caller to the waiter queue. -/
def acquireSpec (st : PoolState) (freshConn w : Nat) : AcquireResult × PoolState :=
  match st.pool.getLast? with
  | some c => (.fromIdle c, ⟨st.pool.dropLast, st.que, st.poolSize⟩)
  | none =>
    if st.pool.length + st.que.length < st.poolSize then (.opened freshConn, st)
    else (.queued w, ⟨st.pool, st.que ++ [w], st.poolSize⟩)

/-- Release policy as the spec states it: hand the connection to the oldest
waiter when any is queued, without touching `idle`; otherwise push it onto
`idle` when there is room under capacity; otherwise close it. -/
def releaseSpec (st : PoolState) (c : Nat) : PoolState × ReleaseAction :=
  if h : st.que.isEmpty = false then
    (⟨st.pool, st.que.tail, st.poolSize⟩,
      .handed (st.que.head (by simpa [List.isEmpty_iff] using h)) c)
  else if st.pool.length < st.poolSize then
    (⟨st.pool ++ [c], st.que, st.poolSize⟩, .pooled c)
  else (st, .closed c)

/-! ## Pool lemmas and claim theorems C1, C2, C7 -/

/-- Claim C1: `getConnection` pops the most-recently-released idle connection
when `idle` is non-empty, opens a brand-new connection exactly when
`idle.size + waiters.size < capacity`, and otherwise enqueues a waiter at the
back of the queue.  The second conjunct pins the LIFO behaviour: a
connection just released into a pool with room and no waiters is exactly the
one the next acquisition returns, restoring the previous state. -/
theorem claim_C1 (st : PoolState) (c w : Nat) :
    getConnection st c w = acquireSpec st c w ∧
    (st.que = [] → st.pool.length < st.poolSize →
      getConnection (releaseConnection st c).1 c w = (.fromIdle c, st)) := by
  obtain ⟨pool, que, n⟩ := st
  constructor
  · rcases pool.eq_nil_or_concat with rfl | ⟨p, a, rfl⟩
    · simp [getConnection, acquireSpec]
    · simp [getConnection, acquireSpec, List.getLast?_concat, List.getLastD_concat,
        List.dropLast_concat]
  · intro hq hlen
    subst hq
    simp only [releaseConnection, hlen, if_pos]
    simp [getConnection, List.getLastD_concat, List.dropLast_concat]

/-- Witness for claim C1 at a concrete state: pool capacity 2, one idle
connection, no waiters. -/
theorem claim_C1_witness :
    getConnection ⟨[3], [], 2⟩ 9 7 = acquireSpec ⟨[3], [], 2⟩ 9 7 ∧
    getConnection (releaseConnection ⟨[3], [], 2⟩ 9).1 9 7 = (.fromIdle 9, ⟨[3], [], 2⟩) :=
  ⟨(claim_C1 ⟨[3], [], 2⟩ 9 7).1,
   (claim_C1 ⟨[3], [], 2⟩ 9 7).2 rfl (by decide)⟩

/-- Claim C2: `releaseConnection` hands the connection to the oldest queued
waiter (FIFO) leaving `idle` untouched, else pools it when `idle` has room
under capacity, else closes it; in particular with waiters W1 then W2 queued
it is W1 that is resumed. -/
theorem claim_C2 :
    (∀ st c, releaseConnection st c = releaseSpec st c) ∧
    (∀ pool w1 w2 rest n c,
      releaseConnection ⟨pool, w1 :: w2 :: rest, n⟩ c
        = (⟨pool, w2 :: rest, n⟩, .handed w1 c)) := by
  constructor
  · intro st c
    obtain ⟨pool, que, n⟩ := st
    cases que with
    | nil => simp [releaseConnection, releaseSpec]
    | cons w rest => simp [releaseConnection, releaseSpec]
  · intro pool w1 w2 rest n c
    simp [releaseConnection]

/-- Claim C7 counterexample: a waiter whose timeout fires is not removed
from the queue.  With capacity 1 and the single queued waiter 5, firing the
timeout rejects with the timeout error yet leaves waiter 5 in `que`, so the
queue does not contain only pending acquisitions afterwards. -/
theorem claim_C7_counterexample :
    (onQueTimeout ⟨[], [5], 1⟩).1.que = [5] ∧
    (onQueTimeout ⟨[], [5], 1⟩).2
      = "Connection in QUE timeout: Pool size=1, Queue length=1" := by
  constructor
  · rfl
  · rfl

/-- Claim C7 as amended: when the timeout fires, the waiter's promise is
rejected with the error naming the configured pool size and the current
queue length, but the pool state — in particular the waiter queue — is left
completely unchanged; the stale waiter remains queued and a subsequent
release still hands it the connection. -/
theorem claim_C7 (st : PoolState) :
    (onQueTimeout st).1 = st ∧
    (onQueTimeout st).2 = queTimeoutMsg st.poolSize st.que.length ∧
    (∀ pool w rest n c,
      releaseConnection ⟨pool, w :: rest, n⟩ c = (⟨pool, rest, n⟩, .handed w c)) := by
  refine ⟨rfl, rfl, ?_⟩
  intro pool w rest n c
  simp [releaseConnection]

/-! ## Store lemmas and claim theorems C3, C8, C10 -/

/-- Looking up a key in a map where every matching pair was overwritten with
the new entry finds the new entry, provided some pair matched. -/
lemma storeGet_map_replace (m : MemStore) (key : String) (e : Entry)
    (h : m.any (fun p => p.1 = key) = true) :
    storeGet (m.map (fun p => if p.1 = key then (key, e) else p)) key = some e := by
  induction m with
  | nil => simp at h
  | cons p rest ih =>
    by_cases hp : p.1 = key
    · simp [storeGet, List.find?_cons, hp]
    · have h' : rest.any (fun p => p.1 = key) = true := by simpa [hp] using h
      have := ih h'
      simpa [storeGet, List.find?_cons, hp] using this

/-- Lookup skips a block of pairs none of which match the key. -/
lemma storeGet_append_no_match (m : MemStore) (key : String) (l : MemStore)
    (h : m.any (fun p => p.1 = key) = false) :
    storeGet (m ++ l) key = storeGet l key := by
  induction m with
  | nil => simp
  | cons p rest ih =>
    have hp : ¬(p.1 = key) := by
      intro hk
      simp [hk] at h
    have h' : rest.any (fun p => p.1 = key) = false := by simpa [hp] using h
    simpa [storeGet, List.find?_cons, hp] using ih h'

/-- `Map.set` followed by `Map.get` on the same key yields the entry just set. -/
lemma storeGet_storeSet (m : MemStore) (key : String) (e : Entry) :
    storeGet (storeSet m key e) key = some e := by
  unfold storeSet
  cases hb : m.any (fun p => p.1 = key) with
  | true => simpa [hb] using storeGet_map_replace m key e hb
  | false =>
    simp only [hb, Bool.false_eq_true, if_false]
    rw [storeGet_append_no_match m key _ hb]
    simp [storeGet, List.find?_cons]

/-- Claim C3: on every exit path of an exchange — normal return, the
response-too-large error, or an error thrown by a read or write — the
acquired connection is passed to `releaseConnection` exactly once, and it is
never closed by the exchange body. -/
theorem claim_C3 (conn : Nat) (writeOk : Bool) (command : Chars)
    (maxBufferSize : Nat) (evs : List ReadEv) :
    (requestTrace conn writeOk command maxBufferSize evs).2 = [.released conn] ∧
    (requestTrace conn writeOk command maxBufferSize evs).2.count (.released conn) = 1 ∧
    (∀ c, (requestTrace conn writeOk command maxBufferSize evs).2.count (.closedConn c) = 0) := by
  refine ⟨rfl, ?_, ?_⟩
  · simp [requestTrace]
  · intro c
    simp [requestTrace]

/-- Claim C8 counterexample: an exchange whose read throws a transport error
still hands the connection to `releaseConnection`, which pushes it back into
the idle pool — the connection is pooled, not closed, and re-enters the
idle set. -/
theorem claim_C8_counterexample :
    requestStep ⟨[], [], 10⟩ 7 true (strChars "get k\r\n") 2048 [.fail]
      = (.transportErr, ⟨[7], [], 10⟩, .pooled 7) ∧
    7 ∈ (requestStep ⟨[], [], 10⟩ 7 true (strChars "get k\r\n") 2048 [.fail]).2.1.pool := by
  constructor
  · rfl
  · decide

/-- Claim C8 as amended: errors originating in the transport are treated
like every other exit — the connection is passed to `releaseConnection`
unchanged, never specially closed, and whenever no waiter is queued and the
pool has room it re-enters the idle set. -/
theorem claim_C8 (st : PoolState) (conn : Nat) (writeOk : Bool) (command : Chars)
    (maxBufferSize : Nat) (evs : List ReadEv) :
    (requestStep st conn writeOk command maxBufferSize evs).2.1 = (releaseConnection st conn).1 ∧
    (requestStep st conn writeOk command maxBufferSize evs).2.2 = (releaseConnection st conn).2 ∧
    (st.que = [] → st.pool.length < st.poolSize →
      conn ∈ (requestStep st conn writeOk command maxBufferSize evs).2.1.pool) := by
  refine ⟨rfl, rfl, fun hq hlen => ?_⟩
  obtain ⟨pool, que, n⟩ := st
  simp only at hq
  subst hq
  simp [requestStep, releaseConnection, hlen]

/-- Witness for claim C8 at a concrete transport-error run. -/
theorem claim_C8_witness :
    7 ∈ (requestStep ⟨[], [], 10⟩ 7 true (strChars "get k\r\n") 2048 [.fail]).2.1.pool :=
  (claim_C8 ⟨[], [], 10⟩ 7 true (strChars "get k\r\n") 2048 [.fail]).2.2 rfl (by decide)

/-- Claim C10: `set` clamps the lifetime to a minimum of 1, and every
successful `append`, `prepend`, `incr` and `decr` of the in-memory backend
re-stores the entry through `set` with lifetime 0, so the entry's expiry
always becomes exactly one second after the update, whatever it was before
(a previously never-expiring entry included). -/
theorem claim_C10 (m : MemStore) (now : Int) (key value : String) (lifetime delta : Int) :
    (1 ≤ max 1 lifetime ∧
      storeGet (memSet m now key value lifetime) key
        = some ⟨value, now + max 1 lifetime * 1000⟩) ∧
    (∀ m', memAppend m now key value = some m' →
      ∃ v', storeGet m' key = some ⟨v', now + 1000⟩) ∧
    (∀ m', memPrepend m now key value = some m' →
      ∃ v', storeGet m' key = some ⟨v', now + 1000⟩) ∧
    (∀ r m', memIncr m now key delta = some (r, m') →
      storeGet m' key = some ⟨numToString r, now + 1000⟩) ∧
    (∀ r m', memDecr m now key delta = some (r, m') →
      storeGet m' key = some ⟨numToString r, now + 1000⟩) := by
  have hset : ∀ (m₂ : MemStore) (v : String) (lt : Int),
      storeGet (memSet m₂ now key v lt) key = some ⟨v, now + max 1 lt * 1000⟩ := by
    intro m₂ v lt
    have hpos : (0 : Int) < max 1 lt := lt_of_lt_of_le one_pos (le_max_left 1 lt)
    simp [memSet, hpos, storeGet_storeSet]
  refine ⟨⟨le_max_left 1 lifetime, hset m value lifetime⟩, ?_, ?_, ?_, ?_⟩
  · intro m' hm
    unfold memAppend at hm
    rcases hg : memGet m now key with ⟨vo, m₂⟩
    rw [hg] at hm
    cases vo with
    | none => simp at hm
    | some existing =>
      simp only [Option.some.injEq] at hm
      subst hm
      exact ⟨existing ++ value, by simpa using hset m₂ (existing ++ value) 0⟩
  · intro m' hm
    unfold memPrepend at hm
    rcases hg : memGet m now key with ⟨vo, m₂⟩
    rw [hg] at hm
    cases vo with
    | none => simp at hm
    | some existing =>
      simp only [Option.some.injEq] at hm
      subst hm
      exact ⟨value ++ existing, by simpa using hset m₂ (value ++ existing) 0⟩
  · intro r m' hm
    unfold memIncr at hm
    rcases hg : memGet m now key with ⟨vo, m₂⟩
    rw [hg] at hm
    cases vo with
    | none => simp at hm
    | some existing =>
      simp only [Option.some.injEq, Prod.mk.injEq] at hm
      obtain ⟨hr, hm'⟩ := hm
      subst hr
      subst hm'
      simpa using hset m₂ (numToString ((parseIntJS existing).map (· + delta))) 0
  · intro r m' hm
    unfold memDecr at hm
    rcases hg : memGet m now key with ⟨vo, m₂⟩
    rw [hg] at hm
    cases vo with
    | none => simp at hm
    | some existing =>
      simp only [Option.some.injEq, Prod.mk.injEq] at hm
      obtain ⟨hr, hm'⟩ := hm
      subst hr
      subst hm'
      simpa using hset m₂ (numToString ((parseIntJS existing).map (· - delta))) 0

/-- Witness for claim C10: incrementing the never-expiring entry
`("k", "5")` at time 0 stores `"6"` expiring at 1000 ms. -/
theorem claim_C10_witness :
    storeGet [("k", (⟨"6", (1000 : Int)⟩ : Entry))] "k"
      = some ⟨numToString (some 6), (0 : Int) + 1000⟩ :=
  (claim_C10 [("k", ⟨"5", 0⟩)] 0 "k" "x" 1 1).2.2.2.1 (some 6)
    [("k", ⟨"6", 1000⟩)] (by decide)

/-! ## Chunk-step helpers, `get` response pipeline, and claim C9 -/

def chunkTotal (st : ExchState) (s : Chars) : Nat := st.total + s.length
def chunkParts (st : ExchState) (s : Chars) : List Chars := splitCRLF (st.carry ++ s)
def chunkPushed (command : Chars) (st : ExchState) (s : Chars) : List Chars × Bool :=
  pushLines command st.lines (chunkParts st s).dropLast
def chunkBreakState (command : Chars) (st : ExchState) (s : Chars) : ExchState :=
  ⟨(chunkPushed command st s).1, [], chunkTotal st s⟩
def chunkContState (command : Chars) (st : ExchState) (s : Chars) : ExchState :=
  ⟨(chunkPushed command st s).1, (chunkParts st s).getLastD [], chunkTotal st s⟩

lemma readLoop_chunk (command : Chars) (maxBufferSize : Nat) (st : ExchState)
    (s : Chars) (rest : List ReadEv) :
    readLoop command maxBufferSize st (.chunk s :: rest)
      = if (chunkPushed command st s).2 then
          (.done (finishResp (chunkBreakState command st s)), chunkBreakState command st s)
        else if someENCond (chunkPushed command st s).1 then
          (.done (finishResp (chunkContState command st s)), chunkContState command st s)
        else if maxBufferSize ≤ chunkTotal st s then (.oversize, chunkContState command st s)
        else readLoop command maxBufferSize (chunkContState command st s) rest := by
  simp only [readLoop, chunkPushed, chunkParts, chunkTotal, chunkBreakState, chunkContState]

lemma startsWithC_nil (l : Chars) : startsWithC l [] = true := by cases l <;> rfl

lemma startsWithC_cons_cons (c d : Char) (cs ds : Chars) :
    startsWithC (c :: cs) (d :: ds) = ((c == d) && startsWithC cs ds) := rfl

lemma startsWithC_append (l p r : Chars) (h : startsWithC l p = true) :
    startsWithC (l ++ r) p = true := by
  induction p generalizing l with
  | nil => exact startsWithC_nil _
  | cons d ds ih =>
    cases l with
    | nil => simp [startsWithC] at h
    | cons c cs =>
      rw [startsWithC_cons_cons] at h
      rw [List.cons_append, startsWithC_cons_cons]
      simp only [Bool.and_eq_true] at h ⊢
      exact ⟨h.1, ih cs h.2⟩

lemma ne_nil_of_startsWithC {l : Chars} {d : Char} {ds : Chars}
    (h : startsWithC l (d :: ds) = true) : l ≠ [] := by
  cases l with
  | nil => simp [startsWithC] at h
  | cons c cs => simp

lemma isEndingLine_of_VALUE {l : Chars} (h : startsWithC l (strChars "VALUE") = true) :
    isEndingLine l = false := by
  cases l with
  | nil => simp [startsWithC, strChars] at h
  | cons c cs =>
    have hc : c = 'V' := by
      have h2 : startsWithC (c :: cs) ('V' :: strChars "ALUE") = true := h
      rw [startsWithC_cons_cons, Bool.and_eq_true] at h2
      exact eq_of_beq h2.1
    subst hc
    simp [isEndingLine, ENDING_LINES, strChars]


def wellFormedValueReply (header v : Chars) : Chars :=
  header ++ '\r' :: '\n' :: (v ++ '\r' :: '\n' :: strChars "END\r\n")

lemma wf_parts (header v : Chars) (hh : hasCRLF header = false) (hv : hasCRLF v = false) :
    splitCRLF (wellFormedValueReply header v) = [header, v, strChars "END", []] := by
  unfold wellFormedValueReply
  rw [splitCRLF_clean_append _ hh, splitCRLF_clean_append _ hv]
  rw [show splitCRLF (strChars "END\r\n") = [strChars "END", []] from by decide]

lemma filter_ne_nil_cons (l : Chars) (ls : List Chars) (h : l ≠ []) :
    (l :: ls).filter (fun x => x ≠ []) = l :: ls.filter (fun x => x ≠ []) := by
  simp [List.filter_cons, h]

lemma filter_ne_nil_nil_cons (ls : List Chars) :
    (([] : Chars) :: ls).filter (fun x => x ≠ []) = ls.filter (fun x => x ≠ []) := by
  simp [List.filter_cons]

lemma c9_net_core (cmd header v : Chars) (maxB : Nat)
    (hinc : startsWithC cmd (strChars "incr") = false)
    (hdec : startsWithC cmd (strChars "decr") = false)
    (hh : hasCRLF header = false) (hval : startsWithC header (strChars "VALUE") = true)
    (hv : hasCRLF v = false) (hvne : v ≠ []) :
    (match readLoop cmd maxB initExch [.chunk (wellFormedValueReply header v)] with
      | (.done r, _) => some r
      | _ => none).bind memcachedGetParse = some v := by
  have hval' : startsWithC header ('V' :: strChars "ALUE") = true := hval
  have hhne : header ≠ [] := ne_nil_of_startsWithC hval'
  have hlbh : lineBreakCond cmd header = false := by
    unfold lineBreakCond
    rw [isEndingLine_of_VALUE hval, hinc, hdec]
    rfl
  have hlbEND : lineBreakCond cmd (strChars "END") = true := by
    unfold lineBreakCond
    rw [show isEndingLine (strChars "END") = true from by decide]
    rfl
  have hdl : (chunkParts initExch (wellFormedValueReply header v)).dropLast
      = [header, v, strChars "END"] := by
    unfold chunkParts initExch
    simp only [List.nil_append]
    rw [wf_parts header v hh hv]
    rfl
  have hparse2 : ∀ tail2 : Chars,
      memcachedGetParse (header ++ '\r' :: '\n' :: tail2)
        = (header :: splitCRLF tail2).get? 1 := by
    intro tail2
    unfold memcachedGetParse
    rw [if_pos (startsWithC_append header (strChars "VALUE") _ hval)]
    rw [splitCRLF_clean_append _ hh]
  by_cases hvend : isEndingLine v = true
  · have hlbv : lineBreakCond cmd v = true := by
      unfold lineBreakCond
      rw [hvend]
      rfl
    have hpush : chunkPushed cmd initExch (wellFormedValueReply header v)
        = ([header, v], true) := by
      unfold chunkPushed
      rw [hdl]
      show pushLines cmd initExch.lines [header, v, strChars "END"] = _
      rw [show initExch.lines = [] from rfl]
      rw [pushLines, if_neg (by rw [hlbh]; exact fun hc => nomatch hc)]
      rw [pushLines, if_pos (by rw [hlbv])]
      rfl
    have hloop : readLoop cmd maxB initExch [.chunk (wellFormedValueReply header v)]
        = (.done (finishResp (chunkBreakState cmd initExch (wellFormedValueReply header v))),
           chunkBreakState cmd initExch (wellFormedValueReply header v)) := by
      rw [readLoop_chunk]
      rw [if_pos (by rw [hpush])]
    rw [hloop]
    show (memcachedGetParse
      (finishResp (chunkBreakState cmd initExch (wellFormedValueReply header v))))
      = some v
    have hstate : chunkBreakState cmd initExch (wellFormedValueReply header v)
        = ⟨[header, v], [], chunkTotal initExch (wellFormedValueReply header v)⟩ := by
      unfold chunkBreakState
      rw [hpush]
    rw [hstate]
    have hresp : finishResp ⟨[header, v], [], chunkTotal initExch (wellFormedValueReply header v)⟩
        = header ++ '\r' :: '\n' :: v := by
      show joinCRLF (([header, v, []] : List Chars).filter (fun x => x ≠ [])) = _
      rw [filter_ne_nil_cons _ _ hhne, filter_ne_nil_cons _ _ hvne, filter_ne_nil_nil_cons]
      rfl
    rw [hresp, hparse2 v, splitCRLF_of_not_hasCRLF hv]
    rfl
  · have hvend' : isEndingLine v = false := by
      simpa using hvend
    have hlbv : lineBreakCond cmd v = false := by
      unfold lineBreakCond
      rw [hvend', hinc, hdec]
      rfl
    have hpush : chunkPushed cmd initExch (wellFormedValueReply header v)
        = ([header, v, strChars "END"], true) := by
      unfold chunkPushed
      rw [hdl]
      show pushLines cmd initExch.lines [header, v, strChars "END"] = _
      rw [show initExch.lines = [] from rfl]
      rw [pushLines, if_neg (by rw [hlbh]; exact fun hc => nomatch hc)]
      rw [pushLines, if_neg (by rw [hlbv]; exact fun hc => nomatch hc)]
      rw [pushLines, if_pos (by rw [hlbEND])]
      rfl
    have hloop : readLoop cmd maxB initExch [.chunk (wellFormedValueReply header v)]
        = (.done (finishResp (chunkBreakState cmd initExch (wellFormedValueReply header v))),
           chunkBreakState cmd initExch (wellFormedValueReply header v)) := by
      rw [readLoop_chunk]
      rw [if_pos (by rw [hpush])]
    rw [hloop]
    show (memcachedGetParse
      (finishResp (chunkBreakState cmd initExch (wellFormedValueReply header v))))
      = some v
    have hstate : chunkBreakState cmd initExch (wellFormedValueReply header v)
        = ⟨[header, v, strChars "END"], [],
            chunkTotal initExch (wellFormedValueReply header v)⟩ := by
      unfold chunkBreakState
      rw [hpush]
    rw [hstate]
    have hresp : finishResp
        ⟨[header, v, strChars "END"], [], chunkTotal initExch (wellFormedValueReply header v)⟩
        = header ++ '\r' :: '\n' :: (v ++ '\r' :: '\n' :: strChars "END") := by
      show joinCRLF (([header, v, strChars "END", []] : List Chars).filter (fun x => x ≠ []))
        = _
      rw [filter_ne_nil_cons _ _ hhne, filter_ne_nil_cons _ _ hvne,
        filter_ne_nil_cons _ _ (by decide), filter_ne_nil_nil_cons]
      rfl
    rw [hresp, hparse2 (v ++ '\r' :: '\n' :: strChars "END"), splitCRLF_clean_append _ hv]
    rfl

lemma memGet_fresh (m : MemStore) (key : String) (e : Entry) (t : Int)
    (h : e.expiresAt = 0 ∨ e.expiresAt > t) :
    memGet (storeSet m key e) t key = (some e.value, storeSet m key e) := by
  unfold memGet
  rw [storeGet_storeSet]
  simp [h]

theorem claim_C9 :
    (∀ (m : MemStore) (now : Int) (key value : String) (lifetime t : Int),
      t < now + max 1 lifetime * 1000 →
      (memGet (memSet m now key value lifetime) t key).1 = some value) ∧
    (∀ (key header v : Chars) (maxBufferSize : Nat),
      hasCRLF header = false → startsWithC header (strChars "VALUE") = true →
      hasCRLF v = false → v ≠ [] →
      (getExchange maxBufferSize key [.chunk (wellFormedValueReply header v)]).bind
        memcachedGetParse = some v) := by
  constructor
  · intro m now key value lifetime t ht
    have hlt : (0 : Int) < max 1 lifetime := lt_of_lt_of_le one_pos (le_max_left _ _)
    have hms : memSet m now key value lifetime
        = storeSet m key ⟨value, now + max 1 lifetime * 1000⟩ := by
      simp [memSet, hlt]
    rw [hms, memGet_fresh m key ⟨value, now + max 1 lifetime * 1000⟩ t (Or.inr ht)]
  · intro key header v maxB hh hval hv hvne
    have hinc : startsWithC (strChars "get " ++ key ++ strChars "\r\n") (strChars "incr")
        = false := rfl
    have hdec : startsWithC (strChars "get " ++ key ++ strChars "\r\n") (strChars "decr")
        = false := rfl
    unfold getExchange
    exact c9_net_core _ header v maxB hinc hdec hh hval hv hvne

theorem claim_C9_counterexample :
    (getExchange 2048 (strChars "k")
      [.chunk (wellFormedValueReply (strChars "VALUE k 0 0") (strChars ""))]).bind
      memcachedGetParse = some (strChars "END") ∧ strChars "END" ≠ strChars "" := by
  constructor
  · decide
  · decide

theorem claim_C9_witness :
    (memGet (memSet [] 0 "k" "v" 30) 0 "k").1 = some "v" ∧
    (getExchange 2048 (strChars "k")
      [.chunk (wellFormedValueReply (strChars "VALUE k 0 3") (strChars "val"))]).bind
      memcachedGetParse = some (strChars "val") :=
  ⟨claim_C9.1 [] 0 "k" "v" 30 0 (by decide),
   claim_C9.2 (strChars "k") (strChars "VALUE k 0 3") (strChars "val") 2048
     (by decide) (by decide) (by decide) (by decide)⟩

/-! ## pushLines lemmas and claim theorems C5, C6 -/

/-- The `for` loop breaks exactly when some complete line satisfies the
per-line break condition. -/
lemma pushLines_snd (cmd : Chars) (L : List Chars) : ∀ xs : List Chars,
    (pushLines cmd L xs).2 = xs.any (lineBreakCond cmd) := by
  intro xs
  induction xs generalizing L with
  | nil => rfl
  | cons x xs ih =>
    rw [pushLines]
    cases hx : lineBreakCond cmd x with
    | true => simp [hx]
    | false => simp [hx, ih]

/-- When no complete line breaks the loop, all of them are pushed in order. -/
lemma pushLines_fst_of_no_break (cmd : Chars) (L : List Chars) (xs : List Chars)
    (h : xs.any (lineBreakCond cmd) = false) : (pushLines cmd L xs).1 = L ++ xs := by
  induction xs generalizing L with
  | nil => simp [pushLines]
  | cons x xs ih =>
    rw [List.any_cons, Bool.or_eq_false_iff] at h
    rw [pushLines, if_neg (by rw [h.1]; exact fun hc => nomatch hc)]
    rw [ih _ h.2, List.append_assoc]
    rfl

/-- Pushing a block of non-breaking lines followed by more lines equals
pushing the block first and continuing from the grown line list. -/
lemma pushLines_append_no_break (cmd : Chars) (L : List Chars) (xs ys : List Chars)
    (h : xs.any (lineBreakCond cmd) = false) :
    pushLines cmd L (xs ++ ys) = pushLines cmd (L ++ xs) ys := by
  induction xs generalizing L with
  | nil => simp
  | cons x xs ih =>
    rw [List.any_cons, Bool.or_eq_false_iff] at h
    rw [List.cons_append, pushLines, if_neg (by rw [h.1]; exact fun hc => nomatch hc)]
    rw [ih _ h.2, List.append_assoc]
    rfl

/-- When the loop breaks inside a block of lines, anything after the block
is never examined. -/
lemma pushLines_append_break (cmd : Chars) (L : List Chars) (xs ys : List Chars)
    (h : xs.any (lineBreakCond cmd) = true) :
    pushLines cmd L (xs ++ ys) = pushLines cmd L xs := by
  induction xs generalizing L with
  | nil => simp at h
  | cons x xs ih =>
    cases hx : lineBreakCond cmd x with
    | true =>
      rw [List.cons_append, pushLines, if_pos (by rw [hx]), pushLines, if_pos (by rw [hx])]
    | false =>
      have h' : xs.any (lineBreakCond cmd) = true := by simpa [hx] using h
      rw [List.cons_append, pushLines, if_neg (by rw [hx]; exact fun hc => nomatch hc),
        pushLines, if_neg (by rw [hx]; exact fun hc => nomatch hc)]
      exact ih _ h'

/-- Helper: getLastD over an append whose right part is non-empty. -/
lemma getLastD_append_ne {α : Type} (l₁ : List α) {l₂ : List α} (h : l₂ ≠ []) (d : α) :
    (l₁ ++ l₂).getLastD d = l₂.getLastD d := by
  rw [List.getLastD_eq_getLast?, List.getLastD_eq_getLast?,
    List.getLast?_append_of_ne_nil l₁ h]

/-- Claim C6 counterexample: with `maxBufferSize = 4` and two reads of 3 and
4 bytes (each within the read buffer's size), the exchange accumulates 7
bytes — more than `maxBufferSize` — before the guard throws. -/
theorem claim_C6_counterexample :
    readLoop (strChars "get k\r\n") 4 initExch
      [.chunk (strChars "abc"), .chunk (strChars "defg")]
      = (.oversize, ⟨[], strChars "abcdefg", 7⟩) ∧ 4 < 7 := by
  constructor
  · decide
  · decide

/-- Claim C6 as amended: the guard aborts with the "Response exceeds maximum
buffer size." error exactly when the total read reaches `maxBufferSize` at a
chunk boundary without the loop having terminated; the connection is still
released; and because every single read returns at most `maxBufferSize`
bytes (the buffer's size), the total of an exchange stays below
`2 * maxBufferSize` — but it can exceed `maxBufferSize` itself. -/
theorem claim_C6 (command : Chars) (maxBufferSize : Nat) (st : ExchState)
    (evs : List ReadEv) (conn : Nat) :
    ((readLoop command maxBufferSize st evs).1 = .oversize →
      maxBufferSize ≤ (readLoop command maxBufferSize st evs).2.total) ∧
    (st.total < maxBufferSize →
      (∀ s, ReadEv.chunk s ∈ evs → s.length ≤ maxBufferSize) →
      (readLoop command maxBufferSize st evs).2.total < 2 * maxBufferSize) ∧
    ((readLoop command maxBufferSize initExch evs).1 = .oversize →
      requestTrace conn true command maxBufferSize evs
        = (.failed "Response exceeds maximum buffer size.", [.released conn])) := by
  refine ⟨?_, ?_, ?_⟩
  · induction evs generalizing st with
    | nil => intro h; exact absurd h (by simp [readLoop])
    | cons e rest ih =>
      cases e with
      | fail => intro h; exact absurd h (by simp [readLoop])
      | chunk s =>
        rw [readLoop_chunk]
        by_cases hb : (chunkPushed command st s).2 = true
        · rw [if_pos hb]
          intro h
          exact absurd h (by simp)
        · rw [if_neg hb]
          by_cases hen : someENCond (chunkPushed command st s).1 = true
          · rw [if_pos hen]
            intro h
            exact absurd h (by simp)
          · rw [if_neg hen]
            by_cases hsz : maxBufferSize ≤ chunkTotal st s
            · rw [if_pos hsz]
              intro _
              exact hsz
            · rw [if_neg hsz]
              exact ih (chunkContState command st s)
  · induction evs generalizing st with
    | nil =>
      intro h _
      simp only [readLoop]
      omega
    | cons e rest ih =>
      cases e with
      | fail =>
        intro h _
        simp only [readLoop]
        omega
      | chunk s =>
        intro h hs
        have hslen : s.length ≤ maxBufferSize := hs s (by simp)
        have htot : chunkTotal st s < 2 * maxBufferSize := by
          unfold chunkTotal
          omega
        rw [readLoop_chunk]
        by_cases hb : (chunkPushed command st s).2 = true
        · rw [if_pos hb]
          exact htot
        · rw [if_neg hb]
          by_cases hen : someENCond (chunkPushed command st s).1 = true
          · rw [if_pos hen]
            exact htot
          · rw [if_neg hen]
            by_cases hsz : maxBufferSize ≤ chunkTotal st s
            · rw [if_pos hsz]
              exact htot
            · rw [if_neg hsz]
              refine ih (chunkContState command st s) ?_ ?_
              · show chunkTotal st s < maxBufferSize
                omega
              · intro s' hs'
                exact hs s' (by simp [hs'])
  · intro h
    simp [requestTrace, h, loopOutcome]

/-- Witness for claim C6 at the counterexample run: total 7 with limit 4,
released exactly once. -/
theorem claim_C6_witness :
    (4 ≤ (readLoop (strChars "get k\r\n") 4 initExch
        [.chunk (strChars "abc"), .chunk (strChars "defg")]).2.total) ∧
    requestTrace 7 true (strChars "get k\r\n") 4
        [.chunk (strChars "abc"), .chunk (strChars "defg")]
      = (.failed "Response exceeds maximum buffer size.", [.released 7]) :=
  ⟨(claim_C6 (strChars "get k\r\n") 4 initExch
      [.chunk (strChars "abc"), .chunk (strChars "defg")] 7).1 (by decide),
   (claim_C6 (strChars "get k\r\n") 4 initExch
      [.chunk (strChars "abc"), .chunk (strChars "defg")] 7).2.2 (by decide)⟩

/-! ## Claim C5: the read loop's termination conditions -/

/-- Stop condition of claim C5 as amended, evaluated after one chunk: a
just-completed line is exactly one of the terminal status lines; or the
issued command is an increment/decrement and some line completed; or some
line collected so far begins with the two letters "EN" (a prefix of the END
terminator, not an error marker); or the size guard trips. -/
def stopAfterChunk (command : Chars) (maxBufferSize : Nat) (st : ExchState) (s : Chars) :
    Prop :=
  (∃ l ∈ (chunkParts st s).dropLast, isEndingLine l = true) ∨
  ((startsWithC command (strChars "incr") = true ∨
      startsWithC command (strChars "decr") = true) ∧
    (chunkParts st s).dropLast ≠ []) ∨
  (∃ l ∈ (chunkPushed command st s).1, startsWithC l (strChars "EN") = true) ∨
  maxBufferSize ≤ st.total + s.length

/-- Claim C5 as amended: from any reachable loop state (one whose collected
lines contain no terminal and no "EN"-prefixed line), the loop stops reading
after a chunk — meaning the remaining events are irrelevant — exactly under
`stopAfterChunk`; when no condition holds it keeps reading, continuing on the
post-chunk state.  Condition (c) is the literal two letters "EN", which a
protocol error line such as ERROR does not match. -/
instance stopAfterChunk.instDecidable (command : Chars) (maxBufferSize : Nat)
    (st : ExchState) (s : Chars) : Decidable (stopAfterChunk command maxBufferSize st s) := by
  unfold stopAfterChunk
  infer_instance

theorem claim_C5 (command : Chars) (maxBufferSize : Nat) (st : ExchState) (s : Chars)
    (rest rest' : List ReadEv)
    (hclean : ∀ l ∈ st.lines, lineBreakCond command l = false ∧
      startsWithC l (strChars "EN") = false) :
    (stopAfterChunk command maxBufferSize st s →
      readLoop command maxBufferSize st (.chunk s :: rest)
        = readLoop command maxBufferSize st (.chunk s :: rest')) ∧
    (¬ stopAfterChunk command maxBufferSize st s →
      readLoop command maxBufferSize st (.chunk s :: rest)
        = readLoop command maxBufferSize (chunkContState command st s) rest) := by
  have hsnd : (chunkPushed command st s).2
      = ((chunkParts st s).dropLast).any (lineBreakCond command) :=
    pushLines_snd command st.lines (chunkParts st s).dropLast
  constructor
  · intro hstop
    rw [readLoop_chunk, readLoop_chunk]
    by_cases hb : (chunkPushed command st s).2 = true
    · rw [if_pos hb, if_pos hb]
    · by_cases hen : someENCond (chunkPushed command st s).1 = true
      · rw [if_neg hb, if_neg hb, if_pos hen, if_pos hen]
      · have hsz : maxBufferSize ≤ chunkTotal st s := by
          rcases hstop with hA | hB | hC | hD
          · exfalso
            apply hb
            rw [hsnd, List.any_eq_true]
            obtain ⟨l, hl, hend⟩ := hA
            exact ⟨l, hl, by simp [lineBreakCond, hend]⟩
          · exfalso
            apply hb
            rw [hsnd, List.any_eq_true]
            obtain ⟨hid, hne⟩ := hB
            obtain ⟨l, hl⟩ := List.exists_mem_of_ne_nil _ hne
            refine ⟨l, hl, ?_⟩
            rcases hid with hi | hd
            · simp [lineBreakCond, hi]
            · simp [lineBreakCond, hd]
          · exfalso
            apply hen
            rw [someENCond, List.any_eq_true]
            obtain ⟨l, hl, hEN⟩ := hC
            exact ⟨l, hl, by simp [hEN]⟩
          · exact hD
        rw [if_neg hb, if_neg hb, if_pos hsz, if_pos hsz]
  · intro hstop
    simp only [stopAfterChunk, not_or] at hstop
    obtain ⟨hA, hB, hC, hD⟩ := hstop
    have hany : ((chunkParts st s).dropLast).any (lineBreakCond command) = false := by
      cases hq : ((chunkParts st s).dropLast).any (lineBreakCond command) with
      | false => rfl
      | true =>
        exfalso
        rw [List.any_eq_true] at hq
        obtain ⟨l, hl, hcond⟩ := hq
        rw [lineBreakCond, Bool.or_eq_true, Bool.or_eq_true] at hcond
        rcases hcond with (hend | hi) | hd
        · exact hA ⟨l, hl, hend⟩
        · exact hB ⟨Or.inl hi, List.ne_nil_of_mem hl⟩
        · exact hB ⟨Or.inr hd, List.ne_nil_of_mem hl⟩
    have hb : ¬((chunkPushed command st s).2 = true) := by
      rw [hsnd, hany]
      exact fun hc => nomatch hc
    have hfst : (chunkPushed command st s).1 = st.lines ++ (chunkParts st s).dropLast :=
      pushLines_fst_of_no_break command st.lines _ hany
    have hen : ¬(someENCond (chunkPushed command st s).1 = true) := by
      rw [someENCond]
      intro hq
      rw [List.any_eq_true] at hq
      obtain ⟨l, hl, hcond⟩ := hq
      rw [hfst, List.mem_append] at hl
      rw [Bool.or_eq_true] at hcond
      rcases hl with hold | hnew
      · rcases hcond with hEN | hend
        · rw [(hclean l hold).2] at hEN
          exact nomatch hEN
        · rw [show isEndingLine l = false from by
            have h1 := (hclean l hold).1
            rw [lineBreakCond] at h1
            simp only [Bool.or_eq_false_iff] at h1
            exact h1.1.1] at hend
          exact nomatch hend
      · rcases hcond with hEN | hend
        · exact hC ⟨l, by rw [hfst]; exact List.mem_append_right _ hnew, hEN⟩
        · exact hA ⟨l, hnew, hend⟩
    rw [readLoop_chunk, if_neg hb, if_neg hen,
      if_neg (show ¬maxBufferSize ≤ chunkTotal st s from hD)]

/-- Claim C5 counterexample: `ERROR` — a protocol-level error line — does
not stop the loop (a second chunk is still read and its line collected),
whereas the non-error line `ENIGMA` stops it just because it starts with the
two letters EN.  Condition (c) of the claim is therefore not the protocol
error marker. -/
theorem claim_C5_counterexample :
    (readLoop (strChars "get k\r\n") 2048 initExch
        [.chunk (strChars "ERROR\r\n"), .chunk (strChars "X\r\n")]).1
      = .done (strChars "ERROR\r\nX") ∧
    (readLoop (strChars "get k\r\n") 2048 initExch
        [.chunk (strChars "ENIGMA\r\n"), .chunk (strChars "X\r\n")]).1
      = .done (strChars "ENIGMA") := by
  constructor
  · decide
  · decide

/-- Witness for claim C5 at concrete runs: a terminal END line stops the
loop regardless of later events, and a plain data line keeps it reading. -/
theorem claim_C5_witness :
    (readLoop (strChars "get k\r\n") 2048 initExch
        [.chunk (strChars "END\r\n"), .chunk (strChars "X\r\n")]
      = readLoop (strChars "get k\r\n") 2048 initExch [.chunk (strChars "END\r\n")]) ∧
    (readLoop (strChars "get k\r\n") 2048 initExch
        [.chunk (strChars "data\r\n"), .chunk (strChars "X\r\n")]
      = readLoop (strChars "get k\r\n") 2048
          (chunkContState (strChars "get k\r\n") initExch (strChars "data\r\n"))
          [.chunk (strChars "X\r\n")]) :=
  ⟨(claim_C5 (strChars "get k\r\n") 2048 initExch (strChars "END\r\n")
      [.chunk (strChars "X\r\n")] [] (by simp [initExch])).1 (by decide),
   (claim_C5 (strChars "get k\r\n") 2048 initExch (strChars "data\r\n")
      [.chunk (strChars "X\r\n")] [] (by simp [initExch])).2 (by decide)⟩

/-! ## Claim C4: fragmentation independence of the response framing -/

/-- Loop state after a prefix `p` of the server's byte stream has been
consumed without stopping: its complete lines, its trailing fragment, and
its byte count. -/
def midState (p : Chars) : ExchState :=
  ⟨(splitCRLF p).dropLast, (splitCRLF p).getLastD [], p.length⟩

lemma midState_nil : midState [] = initExch := rfl

/-- Complete lines after consuming `p ++ a` are the complete lines of `p`
followed by the lines the chunk `a` completes from `p`'s trailing fragment. -/
lemma complete_decomp (p a : Chars) :
    (splitCRLF (p ++ a)).dropLast
      = (splitCRLF p).dropLast ++ (chunkParts (midState p) a).dropLast := by
  rw [splitCRLF_append p a, List.dropLast_append_of_ne_nil _ (splitCRLF_ne_nil _)]
  rfl

/-- The trailing fragment after `p ++ a` equals the trailing fragment the
chunk `a` leaves when processed from `p`'s trailing fragment. -/
lemma carry_decomp (p a : Chars) :
    (splitCRLF (p ++ a)).getLastD [] = (chunkParts (midState p) a).getLastD [] := by
  rw [splitCRLF_append p a, getLastD_append_ne _ (splitCRLF_ne_nil _) _]
  rfl

/-- Splitting one merged chunk `a ++ b` completes first `a`'s lines, then
`b`'s lines as they would complete from the post-`a` state. -/
lemma completeAB (p a b : Chars) :
    (chunkParts (midState p) (a ++ b)).dropLast
      = (chunkParts (midState p) a).dropLast
        ++ (chunkParts (midState (p ++ a)) b).dropLast := by
  show (splitCRLF ((splitCRLF p).getLastD [] ++ (a ++ b))).dropLast = _
  rw [← List.append_assoc, splitCRLF_append ((splitCRLF p).getLastD [] ++ a) b]
  rw [List.dropLast_append_of_ne_nil _ (splitCRLF_ne_nil _)]
  have hc : (splitCRLF ((splitCRLF p).getLastD [] ++ a)).getLastD []
      = (splitCRLF (p ++ a)).getLastD [] := (carry_decomp p a).symm
  rw [hc]
  rfl

/-- The merged chunk leaves the same trailing fragment as the two-step
processing. -/
lemma carryAB (p a b : Chars) :
    (chunkParts (midState p) (a ++ b)).getLastD []
      = (chunkParts (midState (p ++ a)) b).getLastD [] := by
  show (splitCRLF ((splitCRLF p).getLastD [] ++ (a ++ b))).getLastD [] = _
  rw [← List.append_assoc, splitCRLF_append ((splitCRLF p).getLastD [] ++ a) b]
  rw [getLastD_append_ne _ (splitCRLF_ne_nil _) _]
  have hc : (splitCRLF ((splitCRLF p).getLastD [] ++ a)).getLastD []
      = (splitCRLF (p ++ a)).getLastD [] := (carry_decomp p a).symm
  rw [hc]
  rfl

/-- The break flag of a chunk's `for` loop equals the any-test over its
completed lines. -/
lemma chunkPushed_snd (command : Chars) (st : ExchState) (s : Chars) :
    (chunkPushed command st s).2
      = ((chunkParts st s).dropLast).any (lineBreakCond command) :=
  pushLines_snd command st.lines (chunkParts st s).dropLast

/-- A loop step that breaks in the `for` loop ignores every later event. -/
lemma readLoop_break_irrel (command : Chars) (maxBufferSize : Nat) (st : ExchState)
    (s : Chars) (rest rest' : List ReadEv)
    (hb : (chunkPushed command st s).2 = true) :
    (readLoop command maxBufferSize st (.chunk s :: rest)).1
      = (readLoop command maxBufferSize st (.chunk s :: rest')).1 := by
  rw [readLoop_chunk, readLoop_chunk, if_pos hb, if_pos hb]

/-- A loop step that passes every check continues on the post-chunk state. -/
lemma readLoop_cont (command : Chars) (maxBufferSize : Nat) (st : ExchState)
    (s : Chars) (rest : List ReadEv)
    (hb : ¬((chunkPushed command st s).2 = true))
    (hen : ¬(someENCond (chunkPushed command st s).1 = true))
    (hsz : ¬(maxBufferSize ≤ chunkTotal st s)) :
    readLoop command maxBufferSize st (.chunk s :: rest)
      = readLoop command maxBufferSize (chunkContState command st s) rest := by
  rw [readLoop_chunk, if_neg hb, if_neg hen, if_neg hsz]

/-- Merging a chunk whose first part breaks the `for` loop gives the same
result as delivering just the first part: everything after the breaking line
is discarded. -/
lemma readLoop_glue_break (command : Chars) (maxBufferSize : Nat) (p a b : Chars)
    (rest rest' : List ReadEv)
    (hbk : ((chunkParts (midState p) a).dropLast).any (lineBreakCond command) = true) :
    (readLoop command maxBufferSize (midState p) (.chunk (a ++ b) :: rest)).1
      = (readLoop command maxBufferSize (midState p) (.chunk a :: rest')).1 := by
  have hpushEq : chunkPushed command (midState p) (a ++ b)
      = chunkPushed command (midState p) a := by
    unfold chunkPushed
    rw [completeAB, pushLines_append_break _ _ _ _ hbk]
  have hb2 : (chunkPushed command (midState p) a).2 = true := by
    rw [chunkPushed_snd]
    exact hbk
  rw [readLoop_chunk, readLoop_chunk, hpushEq, if_pos hb2, if_pos hb2]
  show LoopOut.done (finishResp (chunkBreakState command (midState p) (a ++ b)))
    = LoopOut.done (finishResp (chunkBreakState command (midState p) a))
  have : finishResp (chunkBreakState command (midState p) (a ++ b))
      = finishResp (chunkBreakState command (midState p) a) := by
    unfold finishResp chunkBreakState
    rw [hpushEq]
  rw [this]

/-- Merging a chunk whose first part completes only non-breaking lines gives
the same result as processing the first part (reaching the state after
`p ++ a`) and then the second. -/
lemma readLoop_glue (command : Chars) (maxBufferSize : Nat) (p a b : Chars)
    (rest : List ReadEv)
    (hnb : ((chunkParts (midState p) a).dropLast).any (lineBreakCond command) = false) :
    (readLoop command maxBufferSize (midState p) (.chunk (a ++ b) :: rest)).1
      = (readLoop command maxBufferSize (midState (p ++ a)) (.chunk b :: rest)).1 := by
  have hlines : (midState (p ++ a)).lines
      = (midState p).lines ++ (chunkParts (midState p) a).dropLast := complete_decomp p a
  have hpushEq : chunkPushed command (midState p) (a ++ b)
      = chunkPushed command (midState (p ++ a)) b := by
    unfold chunkPushed
    rw [completeAB, pushLines_append_no_break _ _ _ _ hnb, ← hlines]
  have htotEq : chunkTotal (midState p) (a ++ b) = chunkTotal (midState (p ++ a)) b := by
    unfold chunkTotal midState
    simp [List.length_append, Nat.add_assoc]
  have hcarryEq : (chunkParts (midState p) (a ++ b)).getLastD []
      = (chunkParts (midState (p ++ a)) b).getLastD [] := carryAB p a b
  have hbreakEq : chunkBreakState command (midState p) (a ++ b)
      = chunkBreakState command (midState (p ++ a)) b := by
    unfold chunkBreakState
    rw [hpushEq, htotEq]
  have hcontEq : chunkContState command (midState p) (a ++ b)
      = chunkContState command (midState (p ++ a)) b := by
    unfold chunkContState
    rw [hpushEq, htotEq, hcarryEq]
  rw [readLoop_chunk, readLoop_chunk, hpushEq, hbreakEq, hcontEq, htotEq]

/-- The lines the chunk appends from the post-`p` state are complete lines
of `p ++ a`. -/
lemma mem_complete_of_chunk {p a : Chars} {l : Chars}
    (hl : l ∈ (chunkParts (midState p) a).dropLast) :
    l ∈ (splitCRLF (p ++ a)).dropLast := by
  rw [complete_decomp]
  exact List.mem_append_right _ hl

/-- Complete lines of a prefix are complete lines of the whole stream. -/
lemma mem_complete_of_prefix {p q : Chars} {l : Chars}
    (hl : l ∈ (splitCRLF p).dropLast) :
    l ∈ (splitCRLF (p ++ q)).dropLast := by
  rw [complete_decomp]
  exact List.mem_append_left _ hl

/-- Collected lines that are neither breaking nor EN-prefixed make the
post-chunk scan fail. -/
lemma someEN_false_of_clean (command : Chars) (L : List Chars)
    (h : ∀ l ∈ L, lineBreakCond command l = false ∧ startsWithC l (strChars "EN") = false) :
    someENCond L = false := by
  rw [someENCond]
  cases hq : L.any (fun l => startsWithC l (strChars "EN") || isEndingLine l) with
  | false => rfl
  | true =>
    exfalso
    rw [List.any_eq_true] at hq
    obtain ⟨l, hl, hc⟩ := hq
    rw [Bool.or_eq_true] at hc
    rcases hc with hEN | hend
    · rw [(h l hl).2] at hEN
      exact nomatch hEN
    · have h1 := (h l hl).1
      rw [lineBreakCond] at h1
      simp only [Bool.or_eq_false_iff] at h1
      rw [h1.1.1] at hend
      exact nomatch hend

/-- When no completed line breaks, the post-chunk state from `midState p` is
exactly the mid-state of the longer prefix. -/
lemma chunkContState_midState (command : Chars) (p a : Chars)
    (hnb : ((chunkParts (midState p) a).dropLast).any (lineBreakCond command) = false) :
    chunkContState command (midState p) a = midState (p ++ a) := by
  have h1 : (chunkPushed command (midState p) a).1
      = (splitCRLF p).dropLast ++ (chunkParts (midState p) a).dropLast :=
    pushLines_fst_of_no_break command _ _ hnb
  show (⟨(chunkPushed command (midState p) a).1,
        (chunkParts (midState p) a).getLastD [],
        p.length + a.length⟩ : ExchState) = midState (p ++ a)
  rw [h1, ← complete_decomp, ← carry_decomp]
  unfold midState
  rw [List.length_append]

/-- Core of claim C4: from any mid-state of a prefix whose complete lines
are all non-breaking, delivering the rest of the stream in fragments yields
the same loop value as delivering it in one chunk, provided no line of the
stream starts with "EN" without being a terminal line and the stream fits
under the size limit. -/
lemma c4_main (command : Chars) (maxBufferSize : Nat) (s : Chars)
    (hEN : ∀ l ∈ (splitCRLF s).dropLast,
      startsWithC l (strChars "EN") = true → isEndingLine l = true)
    (hsize : s.length < maxBufferSize) :
    ∀ (F : List Chars) (p : Chars), p ++ F.flatten = s →
      (∀ l ∈ (splitCRLF p).dropLast, lineBreakCond command l = false) →
      (readLoop command maxBufferSize (midState p) (F.map .chunk)).1
        = (readLoop command maxBufferSize (midState p) [.chunk F.flatten]).1 := by
  have hclean : ∀ (p q : Chars), p ++ q = s →
      (∀ l ∈ (splitCRLF p).dropLast, lineBreakCond command l = false) →
      ∀ l ∈ (splitCRLF p).dropLast,
        lineBreakCond command l = false ∧ startsWithC l (strChars "EN") = false := by
    intro p q hpq hInv l hl
    refine ⟨hInv l hl, ?_⟩
    cases hE : startsWithC l (strChars "EN") with
    | false => rfl
    | true =>
      exfalso
      have hls : l ∈ (splitCRLF s).dropLast := by
        rw [← hpq]
        exact mem_complete_of_prefix hl
      have hend := hEN l hls hE
      have h1 := hInv l hl
      rw [lineBreakCond] at h1
      simp only [Bool.or_eq_false_iff] at h1
      rw [h1.1.1] at hend
      exact nomatch hend
  intro F
  induction F with
  | nil =>
    intro p hp hInv
    rw [List.flatten_nil, List.append_nil] at hp
    subst hp
    have hcarry : hasCRLF ((splitCRLF p).getLastD []) = false :=
      hasCRLF_getLastD_splitCRLF p
    have h1 : chunkParts (midState p) [] = [(splitCRLF p).getLastD []] := by
      show splitCRLF ((splitCRLF p).getLastD [] ++ []) = _
      rw [List.append_nil]
      exact splitCRLF_of_not_hasCRLF hcarry
    have h2 : (chunkParts (midState p) []).dropLast = [] := by
      rw [h1]
      rfl
    have hpush : chunkPushed command (midState p) [] = ((midState p).lines, false) := by
      show pushLines command (midState p).lines (chunkParts (midState p) []).dropLast = _
      rw [h2]
      rfl
    have hb : ¬((chunkPushed command (midState p) []).2 = true) := by
      rw [hpush]
      exact fun hc => nomatch hc
    have hen : ¬(someENCond (chunkPushed command (midState p) []).1 = true) := by
      rw [hpush]
      show ¬(someENCond ((splitCRLF p).dropLast) = true)
      rw [someEN_false_of_clean command _
        (hclean p [] (by rw [List.append_nil]) hInv)]
      exact fun hc => nomatch hc
    have hsz : ¬(maxBufferSize ≤ chunkTotal (midState p) []) := by
      show ¬(maxBufferSize ≤ p.length + List.length ([] : Chars))
      simp only [List.length_nil, Nat.add_zero]
      omega
    show (readLoop command maxBufferSize (midState p) []).1
      = (readLoop command maxBufferSize (midState p) [.chunk (List.flatten [])]).1
    rw [show List.flatten ([] : List Chars) = ([] : Chars) from rfl]
    rw [readLoop_cont command maxBufferSize (midState p) [] [] hb hen hsz]
    show (LoopOut.done (finishResp (midState p)))
      = (LoopOut.done (finishResp (chunkContState command (midState p) [])))
    have : finishResp (chunkContState command (midState p) [])
        = finishResp (midState p) := by
      unfold finishResp chunkContState
      rw [hpush, h1]
      rfl
    rw [this]
  | cons a F' ih =>
    intro p hp hInv
    rw [List.flatten_cons] at hp
    rw [List.map_cons, List.flatten_cons]
    by_cases hbk : ((chunkParts (midState p) a).dropLast).any (lineBreakCond command) = true
    · have hb2 : (chunkPushed command (midState p) a).2 = true := by
        rw [chunkPushed_snd]
        exact hbk
      rw [show (readLoop command maxBufferSize (midState p)
            (ReadEv.chunk a :: F'.map ReadEv.chunk)).1
          = (readLoop command maxBufferSize (midState p) [ReadEv.chunk a]).1 from
        readLoop_break_irrel command maxBufferSize (midState p) a _ _ hb2]
      exact (readLoop_glue_break command maxBufferSize p a F'.flatten [] [] hbk).symm
    · have hnb : ((chunkParts (midState p) a).dropLast).any (lineBreakCond command)
          = false := by
        cases hq : ((chunkParts (midState p) a).dropLast).any (lineBreakCond command) with
        | false => rfl
        | true => exact absurd hq hbk
      have hInv' : ∀ l ∈ (splitCRLF (p ++ a)).dropLast,
          lineBreakCond command l = false := by
        intro l hl
        rw [complete_decomp] at hl
        rcases List.mem_append.mp hl with hold | hnew
        · exact hInv l hold
        · rw [List.any_eq_false] at hnb
          have := hnb l hnew
          cases hq : lineBreakCond command l with
          | false => rfl
          | true => exact absurd hq this
      have hp' : (p ++ a) ++ F'.flatten = s := by
        rw [List.append_assoc]
        exact hp
      have hb : ¬((chunkPushed command (midState p) a).2 = true) := by
        rw [chunkPushed_snd, hnb]
        exact fun hc => nomatch hc
      have hen : ¬(someENCond (chunkPushed command (midState p) a).1 = true) := by
        have hfst : (chunkPushed command (midState p) a).1
            = (splitCRLF p).dropLast ++ (chunkParts (midState p) a).dropLast :=
          pushLines_fst_of_no_break command _ _ hnb
        rw [hfst]
        rw [someEN_false_of_clean command _ ?_]
        · exact fun hc => nomatch hc
        · intro l hl
          rcases List.mem_append.mp hl with hold | hnew
          · exact hclean p (a ++ F'.flatten) hp hInv l hold
          · exact hclean (p ++ a) F'.flatten hp' hInv' l (mem_complete_of_chunk hnew)
      have hsz : ¬(maxBufferSize ≤ chunkTotal (midState p) a) := by
        show ¬(maxBufferSize ≤ p.length + a.length)
        have : (p ++ a ++ F'.flatten).length = s.length := by rw [hp']
        rw [List.length_append, List.length_append] at this
        omega
      rw [readLoop_cont command maxBufferSize (midState p) a _ hb hen hsz,
        chunkContState_midState command p a hnb]
      rw [ih (p ++ a) hp' hInv']
      exact (readLoop_glue command maxBufferSize p a F'.flatten [] hnb).symm

/-- Claim C4 as amended: (1) the framing is fragmentation-independent for
every response whose complete lines never begin with "EN" without being a
terminal status line and whose total size stays under `maxBufferSize` —
in general it is not, because the "EN" scan runs only at chunk boundaries;
(2) every normal return is exactly the collected complete lines plus the
trailing fragment, with empty entries removed, rejoined by CRLF. -/
theorem claim_C4 :
    (∀ (command : Chars) (maxBufferSize : Nat) (F : List Chars),
      (∀ l ∈ (splitCRLF F.flatten).dropLast,
        startsWithC l (strChars "EN") = true → isEndingLine l = true) →
      F.flatten.length < maxBufferSize →
      (readLoop command maxBufferSize initExch (F.map .chunk)).1
        = (readLoop command maxBufferSize initExch [.chunk F.flatten]).1) ∧
    (∀ (command : Chars) (maxBufferSize : Nat) (st : ExchState)
        (evs : List ReadEv) (r : Chars),
      (readLoop command maxBufferSize st evs).1 = .done r →
      r = finishResp (readLoop command maxBufferSize st evs).2) := by
  constructor
  · intro command maxBufferSize F hEN hsize
    have h := c4_main command maxBufferSize F.flatten hEN hsize F [] rfl
      (by
        intro l hl
        rw [show splitCRLF [] = [[]] from rfl] at hl
        exact absurd hl (by simp))
    rw [midState_nil] at h
    exact h
  · intro command maxBufferSize st evs r
    induction evs generalizing st with
    | nil =>
      intro h
      simp only [readLoop] at h ⊢
      rw [LoopOut.done.injEq] at h
      exact h.symm
    | cons e rest ih =>
      cases e with
      | fail =>
        intro h
        exact absurd h (by simp [readLoop])
      | chunk s =>
        intro h
        rw [readLoop_chunk] at h ⊢
        by_cases hb : (chunkPushed command st s).2 = true
        · rw [if_pos hb] at h ⊢
          simp only [LoopOut.done.injEq] at h
          exact h.symm
        · rw [if_neg hb] at h ⊢
          by_cases hen : someENCond (chunkPushed command st s).1 = true
          · rw [if_pos hen] at h ⊢
            simp only [LoopOut.done.injEq] at h
            exact h.symm
          · rw [if_neg hen] at h ⊢
            by_cases hsz : maxBufferSize ≤ chunkTotal st s
            · rw [if_pos hsz] at h
              exact absurd h (by simp)
            · rw [if_neg hsz] at h ⊢
              exact ih _ h

/-- Claim C4 counterexample: the same response bytes `ENDER\r\nfoo`
delivered in two fragments parse to `ENDER`, but delivered in a single
fragment parse to `ENDER\r\nfoo`, because the "EN" scan keeps the trailing
fragment only when it arrives in the same chunk. -/
theorem claim_C4_counterexample :
    strChars "ENDER\r\n" ++ strChars "foo" = strChars "ENDER\r\nfoo" ∧
    (readLoop (strChars "get k\r\n") 2048 initExch
        ([strChars "ENDER\r\n", strChars "foo"].map .chunk)).1
      = .done (strChars "ENDER") ∧
    (readLoop (strChars "get k\r\n") 2048 initExch
        [.chunk ([strChars "ENDER\r\n", strChars "foo"].flatten)]).1
      = .done (strChars "ENDER\r\nfoo") ∧
    (strChars "ENDER" : Chars) ≠ strChars "ENDER\r\nfoo" := by
  refine ⟨by decide, by decide, by decide, by decide⟩

/-- Witness for claim C4 on a concrete fragmented response ending in END. -/
theorem claim_C4_witness :
    (readLoop (strChars "get k\r\n") 2048 initExch
        ([strChars "a\r\n", strChars "END\r\n"].map .chunk)).1
      = (readLoop (strChars "get k\r\n") 2048 initExch
          [.chunk ([strChars "a\r\n", strChars "END\r\n"].flatten)]).1 :=
  claim_C4.1 (strChars "get k\r\n") 2048 [strChars "a\r\n", strChars "END\r\n"]
    (by decide) (by decide)

end Memcached
